import Mathlib

/-!
Verification of the chunked P2P file-transfer protocol of this repository.

The embedding follows the two implementations of the protocol in the source:
the manual-signaling WebRTC component (whose receiver stores binary frames at
the next arrival position) and the PeerJS component (whose receiver stores
each chunk at the explicit index carried by the chunk message).  Senders are
modelled as functions from their inputs to the ordered list of payloads handed
to the channel, receivers as step functions over an explicit state.
-/

namespace Stratos

/-- Chunk size shared by both sender variants: CHUNK_SIZE = 64 * 1024 bytes. -/
def CHUNK_SIZE : Nat := 64 * 1024

/-- Bytes are modelled as natural numbers, byte strings as lists of bytes. -/
abbrev Byte := Nat

/-- Number of chunks of a file: Math.ceil(byteLength / CHUNK_SIZE).  Byte lengths
are integers and the floating-point division by a power of two is exact, so the
source expression is the exact natural-number ceiling, rendered here as
(n + (CHUNK_SIZE - 1)) / CHUNK_SIZE. -/
def totalChunksOf (totalSize : Nat) : Nat := (totalSize + (CHUNK_SIZE - 1)) / CHUNK_SIZE

/-- Chunk number i of a byte string:
arrayBuffer.slice(i * CHUNK_SIZE, min((i + 1) * CHUNK_SIZE, byteLength)). -/
def chunkAt (bytes : List Byte) (i : Nat) : List Byte :=
  (bytes.drop (i * CHUNK_SIZE)).take CHUNK_SIZE

/-- A selected file: name, MIME type (file.type, empty when the browser reports
none) and content bytes. -/
structure FileData where
  name : String
  mimeType : String
  bytes : List Byte
  deriving DecidableEq

/-- RTCDataChannel readyState values: connecting, open, closing, closed. -/
inductive ChannelReadyState
  | connecting
  | opened
  | closing
  | closed
  deriving DecidableEq

/-- Payloads emitted by the manual-variant sender, in channel order: a file-start
JSON control message, raw binary chunk frames, and a file-end control message. -/
inductive ManualWire
  | startMsg (name fileType : String) (totalChunks totalSize : Nat)
  | binary (data : List Byte)
  | endMsg
  deriving DecidableEq

/-- Payloads emitted by the PeerJS-variant sender: file-start, index-tagged
file-chunk messages, and file-end. -/
inductive PeerWire
  | startMsg (name fileType : String) (totalChunks totalSize : Nat)
  | chunkMsg (index : Nat) (data : List Byte)
  | endMsg
  deriving DecidableEq

/-- Result of a sendFile call: the payloads passed to the channel in order and
the error reported, if any. -/
structure SendOutcome (w : Type) where
  sent : List w
  error : Option String
  deriving DecidableEq

/-- The sendFile function of the manual variant (part_003 lines 387-442): it
requires a data channel and a selected file, requires readyState open, and then
emits one file-start message, the chunks as binary frames in index order, and
one file-end message. -/
def sendFileManual (dataChannel : Option ChannelReadyState)
    (selectedFile : Option FileData) : SendOutcome ManualWire :=
  match dataChannel, selectedFile with
  | none, _ => ⟨[], some ("No connection or file selected")⟩
  | _, none => ⟨[], some ("No connection or file selected")⟩
  | some st, some f =>
    if st ≠ ChannelReadyState.opened then
      ⟨[], some ("Data channel is not open")⟩
    else
      ⟨ManualWire.startMsg f.name
          (if f.mimeType = ("") then ("application/octet-stream") else f.mimeType)
          (totalChunksOf f.bytes.length) f.bytes.length
        :: ((List.range (totalChunksOf f.bytes.length)).map
              (fun i => ManualWire.binary (chunkAt f.bytes i))
            ++ [ManualWire.endMsg]),
       none⟩

/-- The sendFile function of the PeerJS variant (part_003 lines 1079-1135): it
checks only that a connection object and a file are selected; the state of the
connection is never consulted.  It emits file-start, the index-tagged chunk
messages in order, and file-end. -/
def sendFilePeer (connection : Option ChannelReadyState)
    (selectedFile : Option FileData) : SendOutcome PeerWire :=
  match connection, selectedFile with
  | none, _ => ⟨[], some ("No connection or file selected")⟩
  | _, none => ⟨[], some ("No connection or file selected")⟩
  | some _, some f =>
    ⟨PeerWire.startMsg f.name f.mimeType (totalChunksOf f.bytes.length) f.bytes.length
      :: ((List.range (totalChunksOf f.bytes.length)).map
            (fun i => PeerWire.chunkMsg i (chunkAt f.bytes i))
          ++ [PeerWire.endMsg]),
     none⟩

/-- Receiver-side record of a transfer in progress (interface IncomingTransfer).
The chunks field is a JavaScript array that may contain holes, modelled as a
list of optional slots. -/
structure IncomingTransfer where
  name : String
  fileType : String
  totalChunks : Nat
  totalSize : Nat
  chunks : List (Option (List Byte))
  receivedCount : Nat
  deriving DecidableEq

/-- A received file (interface ReceivedFile): the Blob is modelled by its bytes
together with the MIME type it was constructed with. -/
structure CompletedFile where
  name : String
  mimeType : String
  data : List Byte
  deriving DecidableEq

/-- Receiver state: the in-progress transfer reference (incomingTransferRef) and
the received-files list. -/
structure ReceiverState where
  incoming : Option IncomingTransfer
  receivedFiles : List CompletedFile
  deriving DecidableEq

/-- Initial receiver state: no transfer in progress, no received files. -/
def initialState : ReceiverState := ⟨none, []⟩

/-- JavaScript array element assignment a[i] = v on an array with optional
holes: an in-range write replaces the slot, an out-of-range write extends the
array with holes up to index i. -/
def writeSlot (l : List (Option α)) (i : Nat) (v : α) : List (Option α) :=
  if i < l.length then l.set i (some v)
  else l ++ List.replicate (i - l.length) none ++ [some v]

/-- Bytes contributed by an array hole when the chunks array is passed to the
Blob constructor: a hole reads as undefined, which the Blob constructor
stringifies to the nine ASCII bytes of the word undefined. -/
def holeBytes : List Byte := [117, 110, 100, 101, 102, 105, 110, 101, 100]

/-- Blob assembly, new Blob(transfer.chunks, ...): concatenates the slots in
index order; holes contribute holeBytes. -/
def assembleChunks (chunks : List (Option (List Byte))) : List Byte :=
  (chunks.map (fun c => c.getD holeBytes)).flatten

/-- Number of non-empty slots of a chunks array. -/
def filledCount (chunks : List (Option (List Byte))) : Nat :=
  (chunks.filter Option.isSome).length

/-- One step of the manual-variant receiver: handleTransferMessage for the JSON
control strings together with handleChunkData for binary frames (part_003 lines
205-262).  A file-start unconditionally installs a fresh transfer; a binary
frame is stored at position receivedCount when a transfer is in progress and
dropped otherwise; a file-end with a transfer in progress assembles the chunks
into a Blob, appends it to the received files and clears the transfer. -/
def stepManual (s : ReceiverState) (m : ManualWire) : ReceiverState :=
  match m with
  | ManualWire.startMsg name fileType totalChunks totalSize =>
      { s with incoming := some ⟨name, fileType, totalChunks, totalSize,
          List.replicate totalChunks none, 0⟩ }
  | ManualWire.binary data =>
      match s.incoming with
      | some t =>
          { s with incoming := some { t with
              chunks := writeSlot t.chunks t.receivedCount data,
              receivedCount := t.receivedCount + 1 } }
      | none => s
  | ManualWire.endMsg =>
      match s.incoming with
      | some t =>
          ⟨none, s.receivedFiles ++ [⟨t.name, t.fileType, assembleChunks t.chunks⟩]⟩
      | none => s

/-- One step of the PeerJS-variant receiver: the data handler installed by
setupConnection (part_003 lines 975-1014).  Identical to the manual variant
except that a chunk is stored at the explicit index carried by the message. -/
def stepPeer (s : ReceiverState) (m : PeerWire) : ReceiverState :=
  match m with
  | PeerWire.startMsg name fileType totalChunks totalSize =>
      { s with incoming := some ⟨name, fileType, totalChunks, totalSize,
          List.replicate totalChunks none, 0⟩ }
  | PeerWire.chunkMsg index data =>
      match s.incoming with
      | some t =>
          { s with incoming := some { t with
              chunks := writeSlot t.chunks index data,
              receivedCount := t.receivedCount + 1 } }
      | none => s
  | PeerWire.endMsg =>
      match s.incoming with
      | some t =>
          ⟨none, s.receivedFiles ++ [⟨t.name, t.fileType, assembleChunks t.chunks⟩]⟩
      | none => s

/-- Run the manual-variant receiver over a message sequence. -/
def runManual (s : ReceiverState) (ms : List ManualWire) : ReceiverState :=
  ms.foldl stepManual s

/-- Run the PeerJS-variant receiver over a message sequence. -/
def runPeer (s : ReceiverState) (ms : List PeerWire) : ReceiverState :=
  ms.foldl stepPeer s

/-- Ceiling characterisation used by C9: a natural number z with
n ≤ c * z < n + c is the ceiling of n / c as a rational. -/
lemma ceil_div_eq_of_bounds (n c z : Nat) (hc : 0 < c)
    (h1 : n ≤ c * z) (h2 : c * z < n + c) : ⌈(n : ℚ) / (c : ℚ)⌉ = (z : ℤ) := by
  have hcq : (0 : ℚ) < (c : ℚ) := by exact_mod_cast hc
  have hu : ⌈(n : ℚ) / (c : ℚ)⌉ ≤ (z : ℤ) := by
    apply Int.ceil_le.mpr
    rw [div_le_iff₀ hcq]
    push_cast
    have h1q : (n : ℚ) ≤ (c : ℚ) * (z : ℚ) := by exact_mod_cast h1
    linarith
  have hl : (z : ℤ) - 1 < ⌈(n : ℚ) / (c : ℚ)⌉ := by
    apply Int.lt_ceil.mpr
    rw [lt_div_iff₀ hcq]
    push_cast
    have h2q : (c : ℚ) * (z : ℚ) < (n : ℚ) + (c : ℚ) := by exact_mod_cast h2
    nlinarith
  omega

/-- C9: the chunk count of every transfer is the exact ceiling of
totalSize / chunkSize with chunkSize fixed at 64 KiB, and the chunk count is
zero exactly for an empty file. -/
theorem c9_chunk_count :
    CHUNK_SIZE = 64 * 1024
    ∧ (∀ n : Nat, (totalChunksOf n : ℤ) = ⌈(n : ℚ) / (CHUNK_SIZE : ℚ)⌉)
    ∧ (∀ n : Nat, totalChunksOf n = 0 ↔ n = 0) := by
  have htc : ∀ n : Nat, totalChunksOf n = (n + 65535) / 65536 := fun n => rfl
  refine ⟨rfl, ?_, ?_⟩
  · intro n
    have h1 : n ≤ 65536 * (totalChunksOf n) := by rw [htc]; omega
    have h2 : 65536 * (totalChunksOf n) < n + 65536 := by rw [htc]; omega
    have h3 := ceil_div_eq_of_bounds n 65536 (totalChunksOf n) (by norm_num) h1 h2
    rw [show CHUNK_SIZE = 65536 from rfl]
    exact h3.symm
  · intro n
    rw [htc]
    omega

/-- Witness for C9 at the 200000-byte scenario size and at zero. -/
theorem c9_chunk_count_witness :
    (totalChunksOf 200000 : ℤ) = ⌈(200000 : ℚ) / (CHUNK_SIZE : ℚ)⌉
    ∧ (totalChunksOf 0 = 0 ↔ (0 : Nat) = 0) := by
  refine ⟨?_, c9_chunk_count.2.2 0⟩
  have h := c9_chunk_count.2.1 200000
  exact_mod_cast h

/-- C10: a chunk arriving while no transfer is in progress is silently
discarded by both receiver variants: the state, the receivedCount of any later
transfer and the received-files list are all unchanged. -/
theorem c10_orphan_chunk_discarded (s : ReceiverState) (h : s.incoming = none)
    (i : Nat) (d : List Byte) :
    stepPeer s (PeerWire.chunkMsg i d) = s ∧ stepManual s (ManualWire.binary d) = s := by
  obtain ⟨inc, fs⟩ := s
  simp only [ReceiverState.mk.injEq] at h ⊢
  subst h
  exact ⟨rfl, rfl⟩

/-- Witness for C10 at the idle initial state. -/
theorem c10_orphan_chunk_discarded_witness :
    stepPeer initialState (PeerWire.chunkMsg 0 [1]) = initialState
    ∧ stepManual initialState (ManualWire.binary [2]) = initialState :=
  ⟨(c10_orphan_chunk_discarded initialState rfl 0 [1]).1,
   (c10_orphan_chunk_discarded initialState rfl 0 [2]).2⟩

/-- C3: a file-end received while a transfer is in progress assembles the
buffer into a completed file without any completeness check, appends it to the
received-files list and clears the in-progress transfer, in both variants. -/
theorem c3_end_assembles_unconditionally (s : ReceiverState) (t : IncomingTransfer)
    (h : s.incoming = some t) :
    stepManual s ManualWire.endMsg
        = ⟨none, s.receivedFiles ++ [⟨t.name, t.fileType, assembleChunks t.chunks⟩]⟩
    ∧ stepPeer s PeerWire.endMsg
        = ⟨none, s.receivedFiles ++ [⟨t.name, t.fileType, assembleChunks t.chunks⟩]⟩ := by
  obtain ⟨inc, fs⟩ := s
  simp only at h
  subst h
  exact ⟨rfl, rfl⟩

/-- Witness for C3 at a concrete incomplete transfer: zero of two chunks
received, the file is assembled anyway. -/
theorem c3_end_assembles_unconditionally_witness :
    stepManual ⟨some ⟨("f"), ("text/plain"), 2, 131072, [none, none], 0⟩, []⟩
        ManualWire.endMsg
      = ⟨none, [⟨("f"), ("text/plain"), assembleChunks [none, none]⟩]⟩
    ∧ stepPeer ⟨some ⟨("f"), ("text/plain"), 2, 131072, [none, none], 0⟩, []⟩
        PeerWire.endMsg
      = ⟨none, [⟨("f"), ("text/plain"), assembleChunks [none, none]⟩]⟩ :=
  ⟨(c3_end_assembles_unconditionally _
      ⟨("f"), ("text/plain"), 2, 131072, [none, none], 0⟩ rfl).1,
   (c3_end_assembles_unconditionally _
      ⟨("f"), ("text/plain"), 2, 131072, [none, none], 0⟩ rfl).2⟩

/-- C6 counterexample: the PeerJS sendFile never consults the channel state;
with a connection that is still connecting (not open) and a selected file it
still emits the full start, chunk, end sequence and reports no error. -/
theorem c6_counterexample :
    sendFilePeer (some ChannelReadyState.connecting)
        (some ⟨("a.txt"), ("text/plain"), [1, 2, 3]⟩)
      = ⟨[PeerWire.startMsg ("a.txt") ("text/plain") 1 3,
          PeerWire.chunkMsg 0 [1, 2, 3],
          PeerWire.endMsg], none⟩ := by
  rfl

/-- C6 amended: the manual-variant sendFile called with a non-open channel is
rejected with an error and sends nothing, while the PeerJS variant emits its
messages whatever the channel state is. -/
theorem c6_amended_precondition (st : ChannelReadyState) (f : Option FileData)
    (h : st ≠ ChannelReadyState.opened) :
    ((sendFileManual (some st) f).sent = []
      ∧ (sendFileManual (some st) f).error.isSome = true)
    ∧ (∀ (st2 : ChannelReadyState) (g : FileData),
        (sendFilePeer (some st2) (some g)).sent ≠ []) := by
  constructor
  · cases f with
    | none => exact ⟨rfl, rfl⟩
    | some g => simp [sendFileManual, h]
  · intro st2 g
    simp [sendFilePeer]

/-- Witness for C6 amended at a closed channel and a concrete file. -/
theorem c6_amended_precondition_witness :
    (sendFileManual (some ChannelReadyState.closed) (some ⟨("a"), ("b"), [1]⟩)).sent = []
    ∧ (sendFileManual (some ChannelReadyState.closed) (some ⟨("a"), ("b"), [1]⟩)).error.isSome = true
    ∧ (sendFilePeer (some ChannelReadyState.closed) (some ⟨("a"), ("b"), [1]⟩)).sent ≠ [] := by
  have h := c6_amended_precondition ChannelReadyState.closed (some ⟨("a"), ("b"), [1]⟩)
      (by decide)
  exact ⟨h.1.1, h.1.2, h.2 ChannelReadyState.closed ⟨("a"), ("b"), [1]⟩⟩

/-- C7: a file-start received while a transfer is in progress installs a fresh
all-empty buffer with receivedCount zero, and the whole subsequent behaviour is
independent of the superseded buffer: two receiver states that agree on the
received-files list coincide after the second start, whatever chunks the
discarded transfer had accumulated, in both variants. -/
theorem c7_start_supersedes (s1 s2 : ReceiverState)
    (h : s1.receivedFiles = s2.receivedFiles)
    (name ft : String) (tc sz : Nat) :
    (stepPeer s1 (PeerWire.startMsg name ft tc sz)).incoming
        = some ⟨name, ft, tc, sz, List.replicate tc none, 0⟩
    ∧ (stepManual s1 (ManualWire.startMsg name ft tc sz)).incoming
        = some ⟨name, ft, tc, sz, List.replicate tc none, 0⟩
    ∧ (∀ rest : List PeerWire,
        runPeer s1 (PeerWire.startMsg name ft tc sz :: rest)
          = runPeer s2 (PeerWire.startMsg name ft tc sz :: rest))
    ∧ (∀ rest : List ManualWire,
        runManual s1 (ManualWire.startMsg name ft tc sz :: rest)
          = runManual s2 (ManualWire.startMsg name ft tc sz :: rest)) := by
  have e1 : stepPeer s1 (PeerWire.startMsg name ft tc sz)
      = stepPeer s2 (PeerWire.startMsg name ft tc sz) := by
    simp [stepPeer, h]
  have e2 : stepManual s1 (ManualWire.startMsg name ft tc sz)
      = stepManual s2 (ManualWire.startMsg name ft tc sz) := by
    simp [stepManual, h]
  refine ⟨rfl, rfl, ?_, ?_⟩
  · intro rest
    show runPeer (stepPeer s1 _) rest = runPeer (stepPeer s2 _) rest
    rw [e1]
  · intro rest
    show runManual (stepManual s1 _) rest = runManual (stepManual s2 _) rest
    rw [e2]

/-- Witness for C7: a state holding a partially filled superseded transfer and
the idle state evolve identically from a fresh start on, and the fresh buffer
is empty with receivedCount zero. -/
theorem c7_start_supersedes_witness :
    runPeer ⟨some ⟨("old"), ("t"), 3, 3, [some [7], none, none], 1⟩, []⟩
        [PeerWire.startMsg ("new") ("u") 1 1, PeerWire.chunkMsg 0 [5], PeerWire.endMsg]
      = runPeer ⟨none, []⟩
        [PeerWire.startMsg ("new") ("u") 1 1, PeerWire.chunkMsg 0 [5], PeerWire.endMsg]
    ∧ (stepPeer ⟨some ⟨("old"), ("t"), 3, 3, [some [7], none, none], 1⟩, []⟩
        (PeerWire.startMsg ("new") ("u") 1 1)).incoming
      = some ⟨("new"), ("u"), 1, 1, [none], 0⟩ := by
  have h := c7_start_supersedes
      ⟨some ⟨("old"), ("t"), 3, 3, [some [7], none, none], 1⟩, []⟩
      ⟨none, []⟩ rfl ("new") ("u") 1 1
  exact ⟨h.2.2.1 [PeerWire.chunkMsg 0 [5], PeerWire.endMsg], h.1⟩

/-- C2 counterexample: after one start announcing two chunks, two chunk
messages carrying the same index leave a single non-empty slot but a
receivedCount of two, so receivedCount differs from the number of non-empty
slots, and receivedCount reaches totalChunks although a slot is still empty. -/
theorem c2_counterexample :
    (runPeer initialState [PeerWire.startMsg ("f") ("t") 2 2,
        PeerWire.chunkMsg 0 [9], PeerWire.chunkMsg 0 [8]]).incoming
      = some ⟨("f"), ("t"), 2, 2, [some [8], none], 2⟩
    ∧ filledCount [some [8], none] = 1
    ∧ (2 : Nat) ≠ 1 := by
  refine ⟨rfl, rfl, by decide⟩

/-- Setting the slot right after a fully filled prefix fills the first hole. -/
lemma set_after_prefix (pre : List (List Byte)) (rest : List (Option (List Byte)))
    (v : List Byte) :
    (pre.map some ++ (none :: rest)).set pre.length (some v)
      = pre.map some ++ (some v :: rest) := by
  induction pre with
  | nil => rfl
  | cons a pre ih => simpa using ih

/-- writeSlot at the first hole after a fully filled prefix. -/
lemma writeSlot_after_prefix (pre : List (List Byte)) (k : Nat) (v : List Byte) :
    writeSlot (pre.map some ++ (none :: List.replicate k none)) pre.length v
      = pre.map some ++ (some v :: List.replicate k none) := by
  have hlen : pre.length < (pre.map some ++ (none :: List.replicate k none)).length := by
    rw [List.length_append, List.length_map, List.length_cons]
    omega
  simp only [writeSlot]
  rw [if_pos hlen]
  exact set_after_prefix pre (List.replicate k none) v

/-- Feeding the manual receiver successive binary frames writes them into
consecutive slots after the already filled prefix. -/
lemma runManual_fill (fs : List CompletedFile) (name ft : String) (tc sz : Nat)
    (pre ds : List (List Byte)) (k : Nat) :
    runManual ⟨some ⟨name, ft, tc, sz,
        pre.map some ++ List.replicate (ds.length + k) none, pre.length⟩, fs⟩
      (ds.map ManualWire.binary)
      = ⟨some ⟨name, ft, tc, sz,
          (pre ++ ds).map some ++ List.replicate k none, (pre ++ ds).length⟩, fs⟩ := by
  induction ds generalizing pre with
  | nil => simp [runManual]
  | cons d ds ih =>
    have hrep : List.replicate ((d :: ds).length + k) (none : Option (List Byte))
        = none :: List.replicate (ds.length + k) none := by
      rw [show (d :: ds).length + k = (ds.length + k) + 1 by simp; omega]
      rfl
    have hstep : stepManual ⟨some ⟨name, ft, tc, sz,
        pre.map some ++ List.replicate ((d :: ds).length + k) none, pre.length⟩, fs⟩
        (ManualWire.binary d)
        = ⟨some ⟨name, ft, tc, sz,
            (pre ++ [d]).map some ++ List.replicate (ds.length + k) none,
            (pre ++ [d]).length⟩, fs⟩ := by
      simp only [stepManual, hrep, writeSlot_after_prefix]
      simp
    show runManual (stepManual _ (ManualWire.binary d)) (ds.map ManualWire.binary) = _
    rw [hstep]
    have h2 := ih (pre ++ [d])
    simpa using h2

/-- Feeding the PeerJS receiver the chunk messages with consecutive explicit
indexes writes them into the corresponding slots. -/
lemma runPeer_fill (fs : List CompletedFile) (name ft : String) (tc sz : Nat)
    (bytes : List Byte) (n : Nat) :
    ∀ (a k : Nat),
    runPeer ⟨some ⟨name, ft, tc, sz,
        ((List.range a).map (fun i => chunkAt bytes i)).map some
          ++ List.replicate (n + k) none, a⟩, fs⟩
      ((List.range' a n).map (fun i => PeerWire.chunkMsg i (chunkAt bytes i)))
      = ⟨some ⟨name, ft, tc, sz,
          ((List.range (a + n)).map (fun i => chunkAt bytes i)).map some
            ++ List.replicate k none, a + n⟩, fs⟩ := by
  induction n with
  | zero => intro a k; simp [runPeer]
  | succ n ih =>
    intro a k
    have hrep : List.replicate ((n + 1) + k) (none : Option (List Byte))
        = none :: List.replicate (n + k) none := by
      rw [show (n + 1) + k = (n + k) + 1 by omega]
      rfl
    have hlen : ((List.range a).map (fun i => chunkAt bytes i)).length = a := by simp
    have hws := writeSlot_after_prefix ((List.range a).map (fun i => chunkAt bytes i))
        (n + k) (chunkAt bytes a)
    rw [hlen] at hws
    have hstep : stepPeer ⟨some ⟨name, ft, tc, sz,
        ((List.range a).map (fun i => chunkAt bytes i)).map some
          ++ List.replicate ((n + 1) + k) none, a⟩, fs⟩
        (PeerWire.chunkMsg a (chunkAt bytes a))
        = ⟨some ⟨name, ft, tc, sz,
            ((List.range (a + 1)).map (fun i => chunkAt bytes i)).map some
              ++ List.replicate (n + k) none, a + 1⟩, fs⟩ := by
      simp only [stepPeer, hrep]
      rw [hws, List.range_succ]
      simp
    rw [List.range'_succ, List.map_cons]
    show runPeer (stepPeer _ _) _ = _
    rw [hstep]
    rw [show a + (n + 1) = (a + 1) + n by omega]
    exact ih (a + 1) k

/-- Splitting a list into CHUNK_SIZE slices and flattening the slices in index
order gives back the original list. -/
lemma flatten_chunks (bytes : List Byte) :
    ((List.range (totalChunksOf bytes.length)).map (fun i => chunkAt bytes i)).flatten
      = bytes := by
  suffices h : ∀ (b : Nat) (l : List Byte), l.length ≤ b →
      ((List.range (totalChunksOf l.length)).map (fun i => chunkAt l i)).flatten = l from
    h bytes.length bytes le_rfl
  intro b
  induction b with
  | zero =>
    intro l hl
    have : l = [] := List.length_eq_zero.mp (Nat.le_zero.mp hl)
    subst this
    rfl
  | succ b ih =>
    intro l hl
    by_cases h0 : l.length = 0
    · have : l = [] := List.length_eq_zero.mp h0
      subst this
      rfl
    · have h1 : totalChunksOf l.length = totalChunksOf (l.drop CHUNK_SIZE).length + 1 := by
        simp only [totalChunksOf, CHUNK_SIZE, List.length_drop]
        omega
      rw [h1, List.range_succ_eq_map, List.map_cons, List.map_map, List.flatten_cons]
      have hhead : chunkAt l 0 = l.take CHUNK_SIZE := by
        simp [chunkAt]
      have htail : (List.range (totalChunksOf (l.drop CHUNK_SIZE).length)).map
            ((fun i => chunkAt l i) ∘ Nat.succ)
          = (List.range (totalChunksOf (l.drop CHUNK_SIZE).length)).map
            (fun i => chunkAt (l.drop CHUNK_SIZE) i) := by
        apply List.map_congr_left
        intro i _
        simp only [Function.comp, chunkAt, List.drop_drop]
        rw [show Nat.succ i * CHUNK_SIZE = CHUNK_SIZE + i * CHUNK_SIZE by
          rw [Nat.succ_mul, Nat.add_comm]]
      rw [hhead, htail, ih (l.drop CHUNK_SIZE) (by
        rw [List.length_drop]
        have : 0 < CHUNK_SIZE := by norm_num [CHUNK_SIZE]
        omega)]
      exact List.take_append_drop CHUNK_SIZE l

/-- Assembling a fully filled buffer concatenates the stored chunks. -/
lemma assembleChunks_full (ds : List (List Byte)) :
    assembleChunks (ds.map some) = ds.flatten := by
  induction ds with
  | nil => rfl
  | cons d ds ih =>
    simp only [assembleChunks] at ih ⊢
    simp only [List.map_cons, Option.getD_some, List.flatten_cons]
    rw [ih]

/-- Unfolding lemma: running the manual receiver over a cons. -/
lemma runManual_cons (s : ReceiverState) (m : ManualWire) (ms : List ManualWire) :
    runManual s (m :: ms) = runManual (stepManual s m) ms := rfl

/-- Unfolding lemma: running the manual receiver over an empty list. -/
lemma runManual_nil (s : ReceiverState) : runManual s [] = s := rfl

/-- Unfolding lemma: running the manual receiver over an append. -/
lemma runManual_append (s : ReceiverState) (l1 l2 : List ManualWire) :
    runManual s (l1 ++ l2) = runManual (runManual s l1) l2 :=
  List.foldl_append stepManual s l1 l2

/-- Unfolding lemma: running the PeerJS receiver over a cons. -/
lemma runPeer_cons (s : ReceiverState) (m : PeerWire) (ms : List PeerWire) :
    runPeer s (m :: ms) = runPeer (stepPeer s m) ms := rfl

/-- Unfolding lemma: running the PeerJS receiver over an empty list. -/
lemma runPeer_nil (s : ReceiverState) : runPeer s [] = s := rfl

/-- Unfolding lemma: running the PeerJS receiver over an append. -/
lemma runPeer_append (s : ReceiverState) (l1 l2 : List PeerWire) :
    runPeer s (l1 ++ l2) = runPeer (runPeer s l1) l2 :=
  List.foldl_append stepPeer s l1 l2

/-- Complete run of the manual pipeline on the receiver side: a start message,
all chunk frames in order, then an end message, append exactly the reassembled
file to the received-files list and clear the transfer. -/
lemma runManual_pipeline (s0 : Option IncomingTransfer) (fs : List CompletedFile)
    (name mime : String) (bytes : List Byte) :
    runManual ⟨s0, fs⟩
        (ManualWire.startMsg name mime (totalChunksOf bytes.length) bytes.length
          :: ((List.range (totalChunksOf bytes.length)).map
                (fun i => ManualWire.binary (chunkAt bytes i))
              ++ [ManualWire.endMsg]))
      = ⟨none, fs ++ [⟨name, mime, bytes⟩]⟩ := by
  have hchunks : (List.range (totalChunksOf bytes.length)).map
        (fun i => ManualWire.binary (chunkAt bytes i))
      = ((List.range (totalChunksOf bytes.length)).map
          (fun i => chunkAt bytes i)).map ManualWire.binary := by
    rw [List.map_map]
    rfl
  have hfill := runManual_fill fs name mime (totalChunksOf bytes.length) bytes.length
      [] ((List.range (totalChunksOf bytes.length)).map (fun i => chunkAt bytes i)) 0
  simp only [List.nil_append, List.length_nil, List.length_map, List.length_range,
    Nat.add_zero, List.replicate_zero, List.append_nil, List.map_nil] at hfill
  rw [runManual_cons]
  rw [show stepManual ⟨s0, fs⟩
      (ManualWire.startMsg name mime (totalChunksOf bytes.length) bytes.length)
      = ⟨some ⟨name, mime, totalChunksOf bytes.length, bytes.length,
          List.replicate (totalChunksOf bytes.length) none, 0⟩, fs⟩ from rfl]
  rw [runManual_append, hchunks, hfill, runManual_cons, runManual_nil]
  rw [show stepManual ⟨some ⟨name, mime, totalChunksOf bytes.length, bytes.length,
        ((List.range (totalChunksOf bytes.length)).map (fun i => chunkAt bytes i)).map some,
        totalChunksOf bytes.length⟩, fs⟩ ManualWire.endMsg
      = ⟨none, fs ++ [⟨name, mime, assembleChunks
          (((List.range (totalChunksOf bytes.length)).map (fun i => chunkAt bytes i)).map
            some)⟩]⟩ from rfl]
  rw [assembleChunks_full, flatten_chunks]

/-- Complete run of the PeerJS pipeline on the receiver side. -/
lemma runPeer_pipeline (s0 : Option IncomingTransfer) (fs : List CompletedFile)
    (name mime : String) (bytes : List Byte) :
    runPeer ⟨s0, fs⟩
        (PeerWire.startMsg name mime (totalChunksOf bytes.length) bytes.length
          :: ((List.range (totalChunksOf bytes.length)).map
                (fun i => PeerWire.chunkMsg i (chunkAt bytes i))
              ++ [PeerWire.endMsg]))
      = ⟨none, fs ++ [⟨name, mime, bytes⟩]⟩ := by
  have hfill := runPeer_fill fs name mime (totalChunksOf bytes.length) bytes.length
      bytes (totalChunksOf bytes.length) 0 0
  simp only [List.range_zero, List.map_nil, List.nil_append, Nat.add_zero, Nat.zero_add,
    List.replicate_zero, List.append_nil] at hfill
  rw [runPeer_cons]
  rw [show stepPeer ⟨s0, fs⟩
      (PeerWire.startMsg name mime (totalChunksOf bytes.length) bytes.length)
      = ⟨some ⟨name, mime, totalChunksOf bytes.length, bytes.length,
          List.replicate (totalChunksOf bytes.length) none, 0⟩, fs⟩ from rfl]
  rw [runPeer_append]
  rw [show (List.range (totalChunksOf bytes.length)).map
        (fun i => PeerWire.chunkMsg i (chunkAt bytes i))
      = (List.range' 0 (totalChunksOf bytes.length)).map
        (fun i => PeerWire.chunkMsg i (chunkAt bytes i)) by
    rw [List.range_eq_range']]
  rw [hfill, runPeer_cons, runPeer_nil]
  rw [show stepPeer ⟨some ⟨name, mime, totalChunksOf bytes.length, bytes.length,
        ((List.range (totalChunksOf bytes.length)).map (fun i => chunkAt bytes i)).map some,
        totalChunksOf bytes.length⟩, fs⟩ PeerWire.endMsg
      = ⟨none, fs ++ [⟨name, mime, assembleChunks
          (((List.range (totalChunksOf bytes.length)).map (fun i => chunkAt bytes i)).map
            some)⟩]⟩ from rfl]
  rw [assembleChunks_full, flatten_chunks]

/-- C1: sending any file over an open channel with the manual variant and
replaying the emitted payloads at the manual receiver yields exactly one
completed file that is byte-for-byte equal to the original; an empty file is a
zero-chunk transfer (the sender emits only start and end) that still produces
an empty completed file. -/
theorem c1_roundtrip (f : FileData) :
    (runManual initialState
        (sendFileManual (some ChannelReadyState.opened) (some f)).sent).receivedFiles
      = [⟨f.name,
          if f.mimeType = ("") then ("application/octet-stream") else f.mimeType,
          f.bytes⟩]
    ∧ (f.bytes.length = 0 →
        (sendFileManual (some ChannelReadyState.opened) (some f)).sent
          = [ManualWire.startMsg f.name
              (if f.mimeType = ("") then ("application/octet-stream") else f.mimeType) 0 0,
             ManualWire.endMsg]) := by
  have hsent : (sendFileManual (some ChannelReadyState.opened) (some f)).sent
      = ManualWire.startMsg f.name
          (if f.mimeType = ("") then ("application/octet-stream") else f.mimeType)
          (totalChunksOf f.bytes.length) f.bytes.length
        :: ((List.range (totalChunksOf f.bytes.length)).map
              (fun i => ManualWire.binary (chunkAt f.bytes i))
            ++ [ManualWire.endMsg]) := rfl
  constructor
  · rw [hsent, show initialState = (⟨none, []⟩ : ReceiverState) from rfl,
      runManual_pipeline]
    rfl
  · intro h0
    rw [hsent, h0, show totalChunksOf 0 = 0 from rfl]
    simp

/-- Witness for C1 at the empty file: zero chunks, one empty completed file. -/
theorem c1_roundtrip_witness :
    (runManual initialState
        (sendFileManual (some ChannelReadyState.opened)
          (some ⟨("e.bin"), (""), []⟩)).sent).receivedFiles
      = [⟨("e.bin"), ("application/octet-stream"), []⟩]
    ∧ (sendFileManual (some ChannelReadyState.opened) (some ⟨("e.bin"), (""), []⟩)).sent
      = [ManualWire.startMsg ("e.bin") ("application/octet-stream") 0 0,
         ManualWire.endMsg] := by
  have h := c1_roundtrip ⟨("e.bin"), (""), []⟩
  exact ⟨h.1, h.2 rfl⟩

/-- C4: for a complete PeerJS transfer the start message announces the fileType
and totalSize, the receiver reaches receivedCount = totalChunks just before the
end message, and the end message emits exactly one completed file whose MIME
type equals the announced fileType and whose byte length equals the announced
totalSize. -/
theorem c4_complete_emission (f : FileData) :
    (sendFilePeer (some ChannelReadyState.opened) (some f)).sent
        = PeerWire.startMsg f.name f.mimeType (totalChunksOf f.bytes.length) f.bytes.length
          :: ((List.range (totalChunksOf f.bytes.length)).map
                (fun i => PeerWire.chunkMsg i (chunkAt f.bytes i))
              ++ [PeerWire.endMsg])
    ∧ runPeer initialState
        (PeerWire.startMsg f.name f.mimeType (totalChunksOf f.bytes.length) f.bytes.length
          :: (List.range (totalChunksOf f.bytes.length)).map
              (fun i => PeerWire.chunkMsg i (chunkAt f.bytes i)))
      = ⟨some ⟨f.name, f.mimeType, totalChunksOf f.bytes.length, f.bytes.length,
          ((List.range (totalChunksOf f.bytes.length)).map
            (fun i => chunkAt f.bytes i)).map some,
          totalChunksOf f.bytes.length⟩, []⟩
    ∧ (runPeer initialState
        (sendFilePeer (some ChannelReadyState.opened) (some f)).sent).receivedFiles
        = [⟨f.name, f.mimeType, f.bytes⟩]
    ∧ ∀ cf ∈ (runPeer initialState
        (sendFilePeer (some ChannelReadyState.opened) (some f)).sent).receivedFiles,
        cf.mimeType = f.mimeType ∧ cf.data.length = f.bytes.length := by
  have h3 : (runPeer initialState
      (sendFilePeer (some ChannelReadyState.opened) (some f)).sent).receivedFiles
      = [⟨f.name, f.mimeType, f.bytes⟩] := by
    rw [show (sendFilePeer (some ChannelReadyState.opened) (some f)).sent
        = PeerWire.startMsg f.name f.mimeType (totalChunksOf f.bytes.length) f.bytes.length
          :: ((List.range (totalChunksOf f.bytes.length)).map
                (fun i => PeerWire.chunkMsg i (chunkAt f.bytes i))
              ++ [PeerWire.endMsg]) from rfl]
    rw [show initialState = (⟨none, []⟩ : ReceiverState) from rfl, runPeer_pipeline]
    rfl
  refine ⟨rfl, ?_, h3, ?_⟩
  · rw [runPeer_cons]
    rw [show stepPeer initialState
        (PeerWire.startMsg f.name f.mimeType (totalChunksOf f.bytes.length) f.bytes.length)
        = ⟨some ⟨f.name, f.mimeType, totalChunksOf f.bytes.length, f.bytes.length,
            List.replicate (totalChunksOf f.bytes.length) none, 0⟩, []⟩ from rfl]
    have hfill := runPeer_fill [] f.name f.mimeType (totalChunksOf f.bytes.length)
        f.bytes.length f.bytes (totalChunksOf f.bytes.length) 0 0
    simp only [List.range_zero, List.map_nil, List.nil_append, Nat.add_zero, Nat.zero_add,
      List.replicate_zero, List.append_nil] at hfill
    rw [show (List.range (totalChunksOf f.bytes.length)).map
          (fun i => PeerWire.chunkMsg i (chunkAt f.bytes i))
        = (List.range' 0 (totalChunksOf f.bytes.length)).map
          (fun i => PeerWire.chunkMsg i (chunkAt f.bytes i)) by rw [List.range_eq_range']]
    exact hfill
  · intro cf hcf
    rw [h3] at hcf
    have : cf = ⟨f.name, f.mimeType, f.bytes⟩ := List.mem_singleton.mp hcf
    subst this
    exact ⟨rfl, rfl⟩

/-- Witness for C4 at a concrete three-byte file. -/
theorem c4_complete_emission_witness :
    (runPeer initialState
        (sendFilePeer (some ChannelReadyState.opened)
          (some ⟨("a"), ("text/plain"), [1, 2, 3]⟩)).sent).receivedFiles
      = [⟨("a"), ("text/plain"), [1, 2, 3]⟩]
    ∧ CompletedFile.mimeType ⟨("a"), ("text/plain"), [1, 2, 3]⟩ = ("text/plain")
    ∧ (CompletedFile.data ⟨("a"), ("text/plain"), [1, 2, 3]⟩).length = 3 := by
  have h := c4_complete_emission ⟨("a"), ("text/plain"), [1, 2, 3]⟩
  have h4 := h.2.2.2 ⟨("a"), ("text/plain"), [1, 2, 3]⟩
      (by rw [h.2.2.1]; exact List.mem_singleton_self _)
  exact ⟨h.2.2.1, h4.1, h4.2⟩

/-- C8: a successful send emits exactly one start message, then exactly
totalChunks chunk payloads, then one end message, in that order, in both sender
variants; a 200000-byte file yields totalChunks = 4. -/
theorem c8_send_order (f : FileData) :
    (∃ mid : List ManualWire,
        (sendFileManual (some ChannelReadyState.opened) (some f)).sent
          = ManualWire.startMsg f.name
              (if f.mimeType = ("") then ("application/octet-stream") else f.mimeType)
              (totalChunksOf f.bytes.length) f.bytes.length
            :: (mid ++ [ManualWire.endMsg])
        ∧ mid.length = totalChunksOf f.bytes.length
        ∧ ∀ m ∈ mid, ∃ d, m = ManualWire.binary d)
    ∧ (∃ mid : List PeerWire,
        (sendFilePeer (some ChannelReadyState.opened) (some f)).sent
          = PeerWire.startMsg f.name f.mimeType (totalChunksOf f.bytes.length) f.bytes.length
            :: (mid ++ [PeerWire.endMsg])
        ∧ mid.length = totalChunksOf f.bytes.length
        ∧ ∀ m ∈ mid, ∃ i d, m = PeerWire.chunkMsg i d)
    ∧ totalChunksOf 200000 = 4 := by
  refine ⟨⟨(List.range (totalChunksOf f.bytes.length)).map
      (fun i => ManualWire.binary (chunkAt f.bytes i)), rfl, by simp, ?_⟩,
    ⟨(List.range (totalChunksOf f.bytes.length)).map
      (fun i => PeerWire.chunkMsg i (chunkAt f.bytes i)), rfl, by simp, ?_⟩, rfl⟩
  · intro m hm
    simp only [List.mem_map] at hm
    obtain ⟨i, _, rfl⟩ := hm
    exact ⟨chunkAt f.bytes i, rfl⟩
  · intro m hm
    simp only [List.mem_map] at hm
    obtain ⟨i, _, rfl⟩ := hm
    exact ⟨i, chunkAt f.bytes i, rfl⟩

/-- Witness for C8: the 200000-byte scenario chunk count, by the theorem. -/
theorem c8_send_order_witness : totalChunksOf 200000 = 4 :=
  (c8_send_order ⟨("x"), (""), []⟩).2.2

/-- Prepending a filled slot increments the non-empty slot count. -/
lemma filledCount_cons_some (b : List Byte) (l : List (Option (List Byte))) :
    filledCount (some b :: l) = filledCount l + 1 := by
  simp [filledCount, List.filter_cons]

/-- Prepending a hole leaves the non-empty slot count unchanged. -/
lemma filledCount_cons_none (l : List (Option (List Byte))) :
    filledCount (none :: l) = filledCount l := by
  simp [filledCount, List.filter_cons]

/-- A buffer made of a filled prefix followed by holes has exactly the prefix
length of non-empty slots. -/
lemma filledCount_prefix (pre : List (List Byte)) (m : Nat) :
    filledCount (pre.map some ++ List.replicate m none) = pre.length := by
  induction pre with
  | nil =>
    simp only [List.map_nil, List.nil_append, List.length_nil]
    induction m with
    | zero => rfl
    | succ m ihm =>
      rw [show List.replicate (m + 1) (none : Option (List Byte))
          = none :: List.replicate m none from rfl, filledCount_cons_none]
      exact ihm
  | cons a pre ih =>
    simp only [List.map_cons, List.cons_append, List.length_cons]
    rw [filledCount_cons_some, ih]

/-- writeSlot exactly at the end of a fully filled buffer appends the value. -/
lemma writeSlot_at_end (l : List (Option (List Byte))) (v : List Byte) :
    writeSlot l l.length v = l ++ [some v] := by
  simp [writeSlot]

/-- Shape of every reachable manual-variant buffer: a fully filled prefix of
length receivedCount followed by holes. -/
def manualShape (t : IncomingTransfer) : Prop :=
  ∃ (pre : List (List Byte)) (m : Nat),
    t.chunks = pre.map some ++ List.replicate m none ∧ t.receivedCount = pre.length

/-- Every step of the manual receiver preserves the buffer shape. -/
lemma stepManual_shape (s : ReceiverState) (m : ManualWire)
    (h : ∀ t, s.incoming = some t → manualShape t) :
    ∀ t, (stepManual s m).incoming = some t → manualShape t := by
  obtain ⟨inc, fs⟩ := s
  intro t ht
  cases m with
  | startMsg name ft tc sz =>
    have he : some (⟨name, ft, tc, sz, List.replicate tc none, 0⟩ : IncomingTransfer)
        = some t := ht
    have heq := Option.some.inj he
    rw [← heq]
    exact ⟨[], tc, rfl, rfl⟩
  | binary d =>
    cases inc with
    | none => exact h t ht
    | some t0 =>
      have he : some (⟨t0.name, t0.fileType, t0.totalChunks, t0.totalSize,
          writeSlot t0.chunks t0.receivedCount d, t0.receivedCount + 1⟩ : IncomingTransfer)
          = some t := ht
      have heq := Option.some.inj he
      rw [← heq]
      obtain ⟨pre, mm, hch, hrc⟩ := h t0 rfl
      cases mm with
      | zero =>
        refine ⟨pre ++ [d], 0, ?_, ?_⟩
        · show writeSlot t0.chunks t0.receivedCount d
            = (pre ++ [d]).map some ++ List.replicate 0 none
          rw [hch, hrc]
          simp only [List.replicate_zero, List.append_nil]
          rw [show pre.length = (pre.map some).length by rw [List.length_map]]
          rw [writeSlot_at_end]
          simp
        · show t0.receivedCount + 1 = (pre ++ [d]).length
          rw [hrc]
          simp
      | succ mm2 =>
        refine ⟨pre ++ [d], mm2, ?_, ?_⟩
        · show writeSlot t0.chunks t0.receivedCount d
            = (pre ++ [d]).map some ++ List.replicate mm2 none
          rw [hch, hrc, show List.replicate (mm2 + 1) (none : Option (List Byte))
              = none :: List.replicate mm2 none from rfl, writeSlot_after_prefix]
          simp
        · show t0.receivedCount + 1 = (pre ++ [d]).length
          rw [hrc]
          simp
  | endMsg =>
    cases inc with
    | none => exact h t ht
    | some t0 => exact Option.noConfusion ht

/-- Every reachable manual-receiver buffer has the filled-prefix shape. -/
lemma runManual_shape (ms : List ManualWire) :
    ∀ (s : ReceiverState), (∀ t, s.incoming = some t → manualShape t) →
    ∀ t, (runManual s ms).incoming = some t → manualShape t := by
  induction ms with
  | nil => intro s h; exact h
  | cons m ms ih => intro s h; exact ih (stepManual s m) (stepManual_shape s m h)

/-- Reading the slot just written. -/
lemma getD_set_self (l : List (Option (List Byte))) (i : Nat) (v : Option (List Byte))
    (h : i < l.length) : (l.set i v).getD i none = v := by
  induction l generalizing i with
  | nil => simp at h
  | cons a l ih =>
    cases i with
    | zero => rfl
    | succ i => exact ih i (Nat.lt_of_succ_lt_succ h)

/-- Reading any other slot after a write. -/
lemma getD_set_ne (l : List (Option (List Byte))) (i j : Nat) (v : Option (List Byte))
    (h : i ≠ j) : (l.set i v).getD j none = l.getD j none := by
  induction l generalizing i j with
  | nil => rfl
  | cons a l ih =>
    cases i with
    | zero =>
      cases j with
      | zero => exact absurd rfl h
      | succ j => rfl
    | succ i =>
      cases j with
      | zero => rfl
      | succ j => exact ih i j (fun hh => h (by rw [hh]))

/-- Every slot of a fresh buffer is a hole. -/
lemma getD_replicate_none (n j : Nat) :
    (List.replicate n (none : Option (List Byte))).getD j none = none := by
  induction n generalizing j with
  | zero => rfl
  | succ n ih =>
    cases j with
    | zero => rfl
    | succ j => exact ih j

/-- Filling a previously empty in-range slot increments the non-empty count. -/
lemma filledCount_set_some (l : List (Option (List Byte))) (i : Nat) (v : List Byte)
    (hi : i < l.length) (hnone : l.getD i none = none) :
    filledCount (l.set i (some v)) = filledCount l + 1 := by
  induction l generalizing i with
  | nil => simp at hi
  | cons a l ih =>
    cases i with
    | zero =>
      have ha : a = none := hnone
      subst ha
      rw [show (none :: l).set 0 (some v) = some v :: l from rfl,
        filledCount_cons_some, filledCount_cons_none]
    | succ i =>
      rw [show (a :: l).set (i + 1) (some v) = a :: l.set i (some v) from rfl]
      cases a with
      | none =>
        rw [filledCount_cons_none, filledCount_cons_none]
        exact ih i (Nat.lt_of_succ_lt_succ hi) hnone
      | some b =>
        rw [filledCount_cons_some, filledCount_cons_some]
        have := ih i (Nat.lt_of_succ_lt_succ hi) hnone
        omega

/-- Filtering a mapped successor list counts the shifted predicate. -/
lemma filter_map_succ_length (xs : List Nat) (p : Nat → Bool) :
    ((xs.map Nat.succ).filter p).length = (xs.filter (fun j => p (Nat.succ j))).length := by
  induction xs with
  | nil => rfl
  | cons a xs ih =>
    rw [List.map_cons, List.filter_cons, List.filter_cons]
    by_cases h : p (Nat.succ a) = true
    · rw [if_pos h, if_pos (show (fun j => p (Nat.succ j)) a = true from h)]
      simp [ih]
    · rw [if_neg h, if_neg (show ¬((fun j => p (Nat.succ j)) a = true) from h)]
      exact ih

/-- The non-empty slot count equals the number of indexes whose slot reads
non-empty. -/
lemma filledCount_eq_range (l : List (Option (List Byte))) :
    filledCount l
      = ((List.range l.length).filter (fun j => (l.getD j none).isSome)).length := by
  induction l with
  | nil => rfl
  | cons a l ih =>
    rw [List.length_cons, List.range_succ_eq_map]
    cases a with
    | some b =>
      rw [filledCount_cons_some,
        List.filter_cons_of_pos (by rfl), List.length_cons, filter_map_succ_length]
      exact congrArg (fun x => x + 1) ih
    | none =>
      rw [filledCount_cons_none,
        List.filter_cons_of_neg (by simp), filter_map_succ_length]
      exact ih

/-- A buffer whose non-empty slots are exactly a duplicate-free index list has
that many non-empty slots. -/
lemma filledCount_of_fill (l : List (Option (List Byte))) (ds : List Nat)
    (hnd : ds.Nodup) (hlt : ∀ j ∈ ds, j < l.length)
    (hfill : ∀ j, (l.getD j none).isSome = true ↔ j ∈ ds) :
    filledCount l = ds.length := by
  rw [filledCount_eq_range]
  have hperm : ((List.range l.length).filter (fun j => (l.getD j none).isSome)).Perm ds := by
    rw [List.perm_ext_iff_of_nodup ((List.nodup_range l.length).filter _) hnd]
    intro a
    simp only [List.mem_filter, List.mem_range]
    constructor
    · rintro ⟨_, h2⟩
      exact (hfill a).mp h2
    · intro ha
      exact ⟨hlt a ha, (hfill a).mpr ha⟩
  exact hperm.length_eq

/-- A duplicate-free list of indexes below tc has length tc exactly when it
covers every index below tc. -/
lemma nodup_covers_iff (tc : Nat) (ds : List Nat) (hnd : ds.Nodup)
    (hlt : ∀ j ∈ ds, j < tc) :
    ds.length = tc ↔ ∀ j, j < tc → j ∈ ds := by
  have hsub : ds.toFinset ⊆ Finset.range tc := by
    intro a ha
    rw [List.mem_toFinset] at ha
    rw [Finset.mem_range]
    exact hlt a ha
  have hcard : ds.toFinset.card = ds.length := List.toFinset_card_of_nodup hnd
  constructor
  · intro hlen j hj
    have heq : ds.toFinset = Finset.range tc := by
      apply Finset.eq_of_subset_of_card_le hsub
      rw [Finset.card_range, hcard, hlen]
    have hj2 : j ∈ ds.toFinset := by
      rw [heq, Finset.mem_range]
      exact hj
    rwa [List.mem_toFinset] at hj2
  · intro hall
    have hsub2 : Finset.range tc ⊆ ds.toFinset := by
      intro a ha
      rw [Finset.mem_range] at ha
      rw [List.mem_toFinset]
      exact hall a ha
    have h1 := Finset.card_le_card hsub
    have h2 := Finset.card_le_card hsub2
    rw [Finset.card_range] at h1 h2
    omega

/-- Running the indexed receiver over chunk messages with duplicate-free
in-range indexes: receivedCount counts the messages and the filled slots are
exactly the processed indexes. -/
lemma runPeer_chunks_invariant (fs : List CompletedFile)
    (ps : List (Nat × List Byte)) :
    ∀ (t : IncomingTransfer) (done : List Nat),
    (ps.map Prod.fst).Nodup →
    (∀ p ∈ ps, p.1 < t.chunks.length) →
    (∀ p ∈ ps, p.1 ∉ done) →
    t.receivedCount = done.length →
    (∀ j, (t.chunks.getD j none).isSome = true ↔ j ∈ done) →
    ∃ u : IncomingTransfer,
      runPeer ⟨some t, fs⟩ (ps.map (fun p => PeerWire.chunkMsg p.1 p.2)) = ⟨some u, fs⟩
      ∧ u.chunks.length = t.chunks.length
      ∧ u.receivedCount = done.length + ps.length
      ∧ (∀ j, (u.chunks.getD j none).isSome = true ↔ j ∈ done ++ ps.map Prod.fst) := by
  induction ps with
  | nil =>
    intro t done _ _ _ hrc hfill
    exact ⟨t, rfl, rfl, by simpa using hrc, by simpa using hfill⟩
  | cons p ps ih =>
    intro t done hnodup hlt hnd hrc hfill
    have hi : p.1 < t.chunks.length := hlt p (List.mem_cons_self p ps)
    have hempty : t.chunks.getD p.1 none = none := by
      cases hx : t.chunks.getD p.1 none with
      | none => rfl
      | some b =>
        have hmem : p.1 ∈ done := (hfill p.1).mp (by rw [hx]; rfl)
        exact absurd hmem (hnd p (List.mem_cons_self p ps))
    have hwrite : writeSlot t.chunks p.1 p.2 = t.chunks.set p.1 (some p.2) := by
      simp [writeSlot, hi]
    have hstep : stepPeer ⟨some t, fs⟩ (PeerWire.chunkMsg p.1 p.2)
        = ⟨some (⟨t.name, t.fileType, t.totalChunks, t.totalSize,
            t.chunks.set p.1 (some p.2), t.receivedCount + 1⟩ : IncomingTransfer), fs⟩ := by
      show (⟨some (⟨t.name, t.fileType, t.totalChunks, t.totalSize,
          writeSlot t.chunks p.1 p.2, t.receivedCount + 1⟩ : IncomingTransfer), fs⟩
          : ReceiverState) = _
      rw [hwrite]
    rw [List.map_cons, runPeer_cons, hstep]
    have hx := ih (⟨t.name, t.fileType, t.totalChunks, t.totalSize,
        t.chunks.set p.1 (some p.2), t.receivedCount + 1⟩ : IncomingTransfer) (done ++ [p.1])
      (List.nodup_cons.mp (by simpa using hnodup)).2
      (by
        intro q hq
        show q.1 < (t.chunks.set p.1 (some p.2)).length
        rw [List.length_set]
        exact hlt q (List.mem_cons_of_mem p hq))
      (by
        intro q hq
        rw [List.mem_append]
        rintro (hc | hc)
        · exact hnd q (List.mem_cons_of_mem p hq) hc
        · have hqm : q.1 ∈ ps.map Prod.fst := List.mem_map_of_mem Prod.fst hq
          have hp : p.1 ∉ ps.map Prod.fst := (List.nodup_cons.mp (by simpa using hnodup)).1
          rw [List.mem_singleton] at hc
          rw [hc] at hqm
          exact hp hqm)
      (by
        show t.receivedCount + 1 = (done ++ [p.1]).length
        rw [hrc]
        simp)
      (by
        intro j
        show ((t.chunks.set p.1 (some p.2)).getD j none).isSome = true ↔ j ∈ done ++ [p.1]
        by_cases hj : j = p.1
        · subst hj
          rw [getD_set_self _ _ _ hi]
          simp
        · rw [getD_set_ne _ _ _ _ (fun hh => hj hh.symm), hfill j]
          simp [hj])
    obtain ⟨u, hrun, hulen, hurc, hufill⟩ := hx
    refine ⟨u, hrun, ?_, ?_, ?_⟩
    · rw [hulen]
      show (t.chunks.set p.1 (some p.2)).length = t.chunks.length
      rw [List.length_set]
    · rw [hurc]
      simp
      omega
    · intro j
      rw [hufill j]
      rw [List.append_assoc, List.singleton_append]
      simp

/-- C2 amended: receivedCount counts the chunk messages processed since the
last start, not the non-empty slots.  For the manual (arrival-order) receiver
the two agree in every reachable state.  For the indexed receiver they agree
whenever the chunk indexes received since the start are pairwise distinct and
below totalChunks, and under the same condition every slot is non-empty exactly
when receivedCount = totalChunks; a repeated index breaks the claimed
invariant, as the counterexample shows. -/
theorem c2_amended_invariant :
    (∀ (ms : List ManualWire) (t : IncomingTransfer),
        (runManual initialState ms).incoming = some t →
        t.receivedCount = filledCount t.chunks)
    ∧ (∀ (fs : List CompletedFile) (name ft : String) (tc sz : Nat)
          (ps : List (Nat × List Byte)),
        (ps.map Prod.fst).Nodup →
        (∀ p ∈ ps, p.1 < tc) →
        ∀ t, (runPeer ⟨none, fs⟩
            (PeerWire.startMsg name ft tc sz
              :: ps.map (fun p => PeerWire.chunkMsg p.1 p.2))).incoming = some t →
          t.receivedCount = filledCount t.chunks
          ∧ (t.receivedCount = tc ↔
              ∀ j, j < tc → (t.chunks.getD j none).isSome = true)) := by
  constructor
  · intro ms t ht
    obtain ⟨pre, m, hch, hrc⟩ :=
      runManual_shape ms initialState (fun u hu => Option.noConfusion hu) t ht
    rw [hrc, hch, filledCount_prefix]
  · intro fs name ft tc sz ps hnodup hlt t ht
    rw [runPeer_cons] at ht
    rw [show stepPeer ⟨none, fs⟩ (PeerWire.startMsg name ft tc sz)
        = ⟨some ⟨name, ft, tc, sz, List.replicate tc none, 0⟩, fs⟩ from rfl] at ht
    have hx := runPeer_chunks_invariant fs ps
      ⟨name, ft, tc, sz, List.replicate tc none, 0⟩ []
      hnodup
      (by
        intro q hq
        show q.1 < (List.replicate tc (none : Option (List Byte))).length
        rw [List.length_replicate]
        exact hlt q hq)
      (by intro q hq; exact List.not_mem_nil q.1)
      rfl
      (by
        intro j
        show ((List.replicate tc (none : Option (List Byte))).getD j none).isSome = true
            ↔ j ∈ ([] : List Nat)
        rw [getD_replicate_none]
        simp)
    obtain ⟨u, hrun, hulen, hurc, hufill⟩ := hx
    rw [hrun] at ht
    have hteq : u = t := Option.some.inj ht
    rw [← hteq]
    simp only [List.length_nil, Nat.zero_add] at hurc
    have hlen2 : u.chunks.length = tc := by
      rw [hulen]
      exact List.length_replicate tc none
    have hfill2 : ∀ j, (u.chunks.getD j none).isSome = true ↔ j ∈ ps.map Prod.fst := by
      intro j
      rw [hufill j]
      simp
    have hltds : ∀ j ∈ ps.map Prod.fst, j < u.chunks.length := by
      intro j hj
      rw [hlen2]
      simp only [List.mem_map] at hj
      obtain ⟨q, hq, rfl⟩ := hj
      exact hlt q hq
    have hfc : filledCount u.chunks = (ps.map Prod.fst).length :=
      filledCount_of_fill u.chunks (ps.map Prod.fst) hnodup hltds hfill2
    have hcov := nodup_covers_iff tc (ps.map Prod.fst) hnodup (by
      intro j hj
      simp only [List.mem_map] at hj
      obtain ⟨q, hq, rfl⟩ := hj
      exact hlt q hq)
    constructor
    · rw [hurc, hfc]
      simp
    · rw [hurc]
      constructor
      · intro hrcall j hj
        have hmem : j ∈ ps.map Prod.fst := (hcov.mp (by simpa using hrcall)) j hj
        exact (hfill2 j).mpr hmem
      · intro hall
        have hc2 : ∀ j, j < tc → j ∈ ps.map Prod.fst :=
          fun j hj => (hfill2 j).mp (hall j hj)
        have := hcov.mpr hc2
        simpa using this

/-- Witness for C2 amended: a two-chunk indexed transfer with distinct in-range
indexes satisfies the invariant and the completion equivalence, and a manual
run with a fresh buffer satisfies the invariant. -/
theorem c2_amended_invariant_witness :
    IncomingTransfer.receivedCount ⟨("f"), ("t"), 2, 2, [some [5], some [6]], 2⟩
      = filledCount [some [5], some [6]]
    ∧ ((2 : Nat) = 2 ↔ ∀ j, j < 2 →
        (([some [5], some [6]] : List (Option (List Byte))).getD j none).isSome = true)
    ∧ IncomingTransfer.receivedCount ⟨("g"), ("u"), 3, 3, [none, none, none], 0⟩
      = filledCount [none, none, none] := by
  have h := c2_amended_invariant.2 [] ("f") ("t") 2 2 [(0, [5]), (1, [6])]
      (by decide) (by decide) ⟨("f"), ("t"), 2, 2, [some [5], some [6]], 2⟩ rfl
  have h2 := c2_amended_invariant.1 [ManualWire.startMsg ("g") ("u") 3 3]
      ⟨("g"), ("u"), 3, 3, [none, none, none], 0⟩ rfl
  exact ⟨h.1, h.2, h2⟩

end Stratos
